import Mathlib

/-!
Verification of the community-detection algorithms of this repository
(Louvain drafts in `networkx/algorithms/communities.py` and
`networkx/algorithms/community.py`, and the Girvan-Newman routine in
`networkx/algorithms/community/community.py`) against their
natural-language specification.

Graphs are shallowly embedded: a graph is a list of nodes, a list of
weighted edges, and a per-node `members` attribute (used by the
aggregated graphs the Louvain driver builds).  Edge weights are exact
rationals carried by the executable fraction type `Wt` below (the
Python floats of the source only ever hold exact small rational values
in the scenarios considered here); `Wt.toRat` interprets them in ℚ and
every theorem about weight values is stated through that
interpretation.  Node iteration, neighbor iteration and edge iteration
follow the stored lists; in the Python 2 source these iterations
follow dict order, which for the small integer ids (< 8) of every
concrete graph below is ascending numeric order, and the stored lists
of those graphs are in exactly that order.
-/

/-- An exact rational number with explicit numerator and positive
denominator and gcd-free arithmetic, so that the kernel can evaluate
the embedded programs; `Wt.toRat` is its value in ℚ. -/
structure Wt where
  num : ℤ
  den : ℕ
  pos : 0 < den

/-- The rational value of a `Wt`. -/
def Wt.toRat (a : Wt) : ℚ := (a.num : ℚ) / (a.den : ℚ)

/-- Embed a natural number. -/
def Wt.ofNat (n : ℕ) : Wt := ⟨(n : ℤ), 1, Nat.one_pos⟩

/-- Build `n / d`, falling back to denominator 1 when `d = 0`. -/
def Wt.mkq (n : ℤ) (d : ℕ) : Wt :=
  if h : 0 < d then ⟨n, d, h⟩ else ⟨n, 1, Nat.one_pos⟩

/-- Addition of fractions without normalization. -/
def Wt.add (a b : Wt) : Wt :=
  ⟨a.num * (b.den : ℤ) + b.num * (a.den : ℤ), a.den * b.den, Nat.mul_pos a.pos b.pos⟩

/-- Subtraction of fractions without normalization. -/
def Wt.sub (a b : Wt) : Wt :=
  ⟨a.num * (b.den : ℤ) - b.num * (a.den : ℤ), a.den * b.den, Nat.mul_pos a.pos b.pos⟩

/-- Multiplication of fractions without normalization. -/
def Wt.mul (a b : Wt) : Wt :=
  ⟨a.num * b.num, a.den * b.den, Nat.mul_pos a.pos b.pos⟩

/-- Division of fractions; division by a zero value yields 0, matching
the convention of ℚ in Mathlib (the embedded runs below never divide
by zero where the Python source would not also fail). -/
def Wt.div (a b : Wt) : Wt :=
  if h : b.num = 0 then ⟨0, 1, Nat.one_pos⟩
  else ⟨a.num * (b.den : ℤ) * b.num.sign, a.den * b.num.natAbs,
        Nat.mul_pos a.pos (Int.natAbs_pos.mpr h)⟩

/-- Value comparison (strictly less) by cross-multiplication. -/
def Wt.blt (a b : Wt) : Bool := decide (a.num * (b.den : ℤ) < b.num * (a.den : ℤ))

/-- Value equality by cross-multiplication. -/
def Wt.beq (a b : Wt) : Bool := decide (a.num * (b.den : ℤ) = b.num * (a.den : ℤ))

instance : OfNat Wt n := ⟨Wt.ofNat n⟩

instance : Add Wt := ⟨Wt.add⟩

instance : Sub Wt := ⟨Wt.sub⟩

instance : Mul Wt := ⟨Wt.mul⟩

instance : Div Wt := ⟨Wt.div⟩

/-- Value-based maximum, used by the Girvan-Newman edge filter. -/
def Wt.vmax (a b : Wt) : Wt := if a.blt b then b else a

/-- Sum of a list of weights. -/
def wsum (l : List Wt) : Wt := l.foldr Wt.add (Wt.ofNat 0)

/-! ## The graph model -/

/-- A weighted undirected graph: node list, edge list (each undirected
edge `(u, v, w)` stored once, self-loops allowed), and the `members`
node attribute used by aggregated graphs (empty when absent). -/
structure Graph where
  nodes : List ℕ
  edges : List (ℕ × ℕ × Wt)
  members : ℕ → Finset ℕ

instance : Inhabited Graph := ⟨⟨[], [], fun _ => ∅⟩⟩

/-- Build a graph with no `members` attributes (an input graph). -/
def mkG (ns : List ℕ) (es : List (ℕ × ℕ × Wt)) : Graph :=
  ⟨ns, es, fun _ => ∅⟩

/-- `G.number_of_edges()`. -/
def numberOfEdges (G : Graph) : ℕ := G.edges.length

/-- `G.size(weight='weight')`: the sum of all edge weights, self-loops
counted once. -/
def totalWeight (G : Graph) : Wt := wsum (G.edges.map (fun e => e.2.2))

/-- Whether the edge `{u, v}` is present (in either stored orientation). -/
def hasEdge (G : Graph) (u v : ℕ) : Bool :=
  G.edges.any (fun e => (e.1 == u && e.2.1 == v) || (e.1 == v && e.2.1 == u))

/-- `G.get_edge_data(u, v, {'weight': 0}).get('weight', 1)`: the weight
of edge `{u, v}`, `0` when the edge is absent. -/
def edgeW (G : Graph) (u v : ℕ) : Wt :=
  match G.edges.find? (fun e => (e.1 == u && e.2.1 == v) || (e.1 == v && e.2.1 == u)) with
  | some e => e.2.2
  | none => 0

/-- The weight of `u`'s self-loop, `0` when absent. -/
def selfLoopW (G : Graph) (u : ℕ) : Wt := edgeW G u u

/-- `G.degree(u)` with no weight argument (as called throughout both
Louvain drafts): the number of incident edges, self-loops counted
twice. -/
def degN (G : Graph) (u : ℕ) : ℕ :=
  (G.edges.map (fun e =>
    if e.1 = u ∧ e.2.1 = u then 2 else if e.1 = u ∨ e.2.1 = u then 1 else 0)).sum

/-- The weighted degree of `u` (self-loops counted twice).  This is the
`k_u` of the specification's gain formula; the source instead uses the
unweighted `G.degree(u)`. -/
def weightedDeg (G : Graph) (u : ℕ) : Wt :=
  wsum (G.edges.map (fun e =>
    if e.1 = u ∧ e.2.1 = u then Wt.ofNat 2 * e.2.2
    else if e.1 = u ∨ e.2.1 = u then e.2.2 else 0))

/-- `nx.neighbors(G, u)`: the neighbors of `u` (including `u` itself
when it has a self-loop), in node order. -/
def nbrs (G : Graph) (u : ℕ) : List ℕ :=
  G.nodes.filter (fun v => hasEdge G u v)

/-! ## Embedding of `networkx/algorithms/communities.py` (suffix `A`)

Partitions map nodes to community indices; `none` models the transient
`p[u] = None` state of `_remove`.  Community members, the per-community
`inner` and `tot` dictionaries and the partition are collected in one
state record. -/

/-- The mutable state of `_one_pass` in `communities.py`: the partition
`p`, the community member sets `c`, and the `inner` and `tot`
dictionaries, the latter three keyed by community index. -/
structure LState where
  p : ℕ → Option ℕ
  cmem : ℕ → Finset ℕ
  inner : ℕ → Wt
  tot : ℕ → Wt

/-- The value `_k_in(G, u, c, p)` takes at the call sites inside
`_remove` and `_insert` of `communities.py`: the caller passes the
community dictionary `c` itself as `c_target`, so the Python comparison
`p[v] == c_target` compares an int (or `None`) with a dict and is false
for every `v`; the sum is therefore always empty. -/
def kInDictArg : Wt := 0

/-- `_k_in(G, u, c_target, p)` of `communities.py` with a community
index as `c_target`: the summed weight of edges from `u` to nodes
currently in that community, `u` itself excluded. -/
def k_inA (G : Graph) (u c : ℕ) (p : ℕ → Option ℕ) : Wt :=
  wsum (G.nodes.map (fun v => if v ≠ u ∧ p v = some c then edgeW G u v else 0))

/-- `_gain(G, u, c_target, p, tot, denom)` of `communities.py`, where
`denom = 2 * G.size(weight='weight')`. -/
def gainA (G : Graph) (u c : ℕ) (p : ℕ → Option ℕ) (tot : ℕ → Wt) (denom : Wt) : Wt :=
  k_inA G u c p - tot c * Wt.ofNat (degN G u) / denom

/-- `_k_in(G, u, c, p)` of `community.py`: it iterates over every
`v in G` with `p[v] == c`, without excluding `u`; the compared value is
an `Option ℕ` so that the transient `p[u] = []` state (modelled as
`none`) can be compared faithfully. -/
def k_inB (G : Graph) (u : ℕ) (t : Option ℕ) (p : ℕ → Option ℕ) : Wt :=
  wsum (G.nodes.map (fun v => if p v = t then edgeW G u v else 0))

/-- `_gain(G, u, c, p, tot)` of `community.py` (the caller passes the
number `tot[c]`): `k_in/(2m) - tot*degree/(2*m^2)` with
`m = G.size(weight='weight')` recomputed on every call. -/
def gainB (G : Graph) (u c : ℕ) (p : ℕ → Option ℕ) (totc : Wt) : Wt :=
  k_inB G u (some c) p / (Wt.ofNat 2 * totalWeight G)
    - totc * Wt.ofNat (degN G u) / (Wt.ofNat 2 * (totalWeight G * totalWeight G))

/-- `_remove(G, u, c_old, c, p, inner, tot)` of `communities.py`:
subtract the (always-zero, see `kInDictArg`) k_in term plus `u`'s
self-loop from `inner[c_old]`, subtract `G.degree(u)` from
`tot[c_old]`, set `p[u] = None` and drop `u` from `c[c_old]`. -/
def removeA (G : Graph) (u c_old : ℕ) (σ : LState) : LState :=
  { p := fun x => if x = u then none else σ.p x
    cmem := fun k => if k = c_old then (σ.cmem c_old).erase u else σ.cmem k
    inner := fun k => if k = c_old then σ.inner c_old - (kInDictArg + selfLoopW G u) else σ.inner k
    tot := fun k => if k = c_old then σ.tot c_old - Wt.ofNat (degN G u) else σ.tot k }

/-- `_insert(G, u, c_new, c, p, inner, tot)` of `communities.py`: the
additive mirror of `_remove`. -/
def insertA (G : Graph) (u c_new : ℕ) (σ : LState) : LState :=
  { p := fun x => if x = u then some c_new else σ.p x
    cmem := fun k => if k = c_new then insert u (σ.cmem c_new) else σ.cmem k
    inner := fun k => if k = c_new then σ.inner c_new + (kInDictArg + selfLoopW G u) else σ.inner k
    tot := fun k => if k = c_new then σ.tot c_new + Wt.ofNat (degN G u) else σ.tot k }

/-- The initial `_one_pass` state: node number `i` in iteration order is
its own community `i`, with `inner[i]` its self-loop weight (`_init`'s
first component) and `tot[i]` its degree. -/
def initStateA (G : Graph) : LState :=
  { p := fun u => if u ∈ G.nodes then some (G.nodes.indexOf u) else none
    cmem := fun k => if h : k < G.nodes.length then {G.nodes.get ⟨k, h⟩} else ∅
    inner := fun k => if h : k < G.nodes.length then selfLoopW G (G.nodes.get ⟨k, h⟩) else 0
    tot := fun k => if h : k < G.nodes.length then Wt.ofNat (degN G (G.nodes.get ⟨k, h⟩)) else 0 }

/-- The neighbor scan of `_one_pass` in `communities.py`: walk the
neighbor list carrying `(max_gain, c_new)`, starting from `(0, None)`
(both are re-initialized for every node, since the guard
`G.neighbors(u) != 0` compares a list with an int and is always true);
a candidate replaces the current best only on strictly greater gain. -/
def scanA (G : Graph) (σ : LState) (u : ℕ) (denom : Wt) :
    Wt → Option ℕ → List ℕ → Option ℕ
  | _, cur, [] => cur
  | mg, cur, v :: vs =>
    if v = u then scanA G σ u denom mg cur vs
    else
      let cv := (σ.p v).getD 0
      let g := gainA G u cv σ.p σ.tot denom
      if mg.blt g then scanA G σ u denom g (some cv) vs else scanA G σ u denom mg cur vs

/-- The best candidate community for `u` after its removal, `none` when
no neighbor community has strictly positive gain. -/
def bestCandA (G : Graph) (σ : LState) (u : ℕ) (denom : Wt) : Option ℕ :=
  scanA G σ u denom 0 none (nbrs G u)

/-- One node's turn inside a sweep of `_one_pass` (`communities.py`):
remove `u` from its current community, scan the neighbor communities,
fall back to `c_old` when no candidate was set, insert, and report
whether the node moved. -/
def stepA (G : Graph) (denom : Wt) (σ : LState) (u : ℕ) : LState × Bool :=
  let c_old := (σ.p u).getD 0
  let σ1 := removeA G u c_old σ
  let c_new := (bestCandA G σ1 u denom).getD c_old
  (insertA G u c_new σ1, decide (c_new ≠ c_old))

/-- One full sweep over a node list, counting moves. -/
def sweepGoA (G : Graph) (denom : Wt) : LState → ℕ → List ℕ → LState × ℕ
  | σ, cnt, [] => (σ, cnt)
  | σ, cnt, u :: us =>
    let r := stepA G denom σ u
    sweepGoA G denom r.1 (cnt + if r.2 then 1 else 0) us

/-- One sweep of `_one_pass` over all nodes of `G`. -/
def sweepA (G : Graph) (denom : Wt) (σ : LState) : LState × ℕ :=
  sweepGoA G denom σ 0 G.nodes

/-- The `while increase` loop of `_one_pass`: repeat sweeps until one
makes no move, accumulating the `improvements` counter; `none` on fuel
exhaustion. -/
def loopA (G : Graph) (denom : Wt) : LState → ℕ → ℕ → Option (LState × ℕ)
  | _, _, 0 => none
  | σ, imps, f + 1 =>
    let r := sweepA G denom σ
    if r.2 = 0 then some (r.1, imps) else loopA G denom r.1 (imps + r.2) f

/-- The keys of the final community dictionary: empty communities are
filtered out at the end of `_one_pass`. -/
def cKeysA (G : Graph) (σ : LState) : List ℕ :=
  (List.range G.nodes.length).filter (fun k => decide (σ.cmem k ≠ ∅))

/-- `_one_pass(G)` of `communities.py`: returns the final state (whose
`p` and `cmem` are the returned partition and community dictionaries),
the surviving community keys, and the `improvements` count. -/
def one_passA (G : Graph) (fuel : ℕ) : Option (LState × List ℕ × ℕ) :=
  (loopA G (Wt.ofNat 2 * totalWeight G) (initStateA G) 0 fuel).map
    (fun r => (r.1, cKeysA G r.1, r.2))

/-- Add weight `w` to the stored edge `{a, b}` if present, else append
it: the `has_edge`/`+=`/`add_edge` accumulation of
`_partition_to_graph`. -/
def insertAdd : List (ℕ × ℕ × Wt) → ℕ → ℕ → Wt → List (ℕ × ℕ × Wt)
  | [], a, b, w => [(a, b, w)]
  | e :: es, a, b, w =>
    if (e.1 = a ∧ e.2.1 = b) ∨ (e.1 = b ∧ e.2.1 = a) then (e.1, e.2.1, e.2.2 + w) :: es
    else e :: insertAdd es a b w

/-- The contribution of one input edge in `_partition_to_graph`: `2w`
for an internal non-self-loop edge and `w` otherwise. -/
def aggContrib (pOf : ℕ → ℕ) (e : ℕ × ℕ × Wt) : Wt :=
  if pOf e.1 = pOf e.2.1 ∧ e.1 ≠ e.2.1 then Wt.ofNat 2 * e.2.2 else e.2.2

/-- One step of the edge-accumulation loop of `_partition_to_graph`. -/
def aggStep (pOf : ℕ → ℕ) (acc : List (ℕ × ℕ × Wt)) (e : ℕ × ℕ × Wt) : List (ℕ × ℕ × Wt) :=
  insertAdd acc (pOf e.1) (pOf e.2.1) (aggContrib pOf e)

/-- `_partition_to_graph(G, p, c)` of `communities.py`: one node per
surviving community key carrying `members = c[k]`; every edge `(u,v,w)`
of `G` contributes `2w` to the self-loop of its community when internal
and not itself a self-loop, otherwise `w`, accumulating. -/
def partition_to_graph (G : Graph) (pOf : ℕ → ℕ) (keys : List ℕ) (cm : ℕ → Finset ℕ) : Graph :=
  { nodes := keys
    edges := G.edges.foldl (aggStep pOf) []
    members := fun k => if k ∈ keys then cm k else ∅ }

/-- The validation at the top of `louvain` in `communities.py`: it
raises `nx.NetworkXError` exactly when `G.number_of_edges() == 0` or
when the graph is directed, and proceeds otherwise. -/
def louvainAcceptsA (numEdges : ℕ) (isDirected : Bool) : Bool :=
  numEdges != 0 && !isDirected

/-- The validation at the top of `louvain` in `community.py`: it tests
`G.size(weight='weight') == 0` (the total edge weight) instead of the
edge count. -/
def louvainAcceptsB (m : Wt) (isDirected : Bool) : Bool :=
  !(m.beq 0) && !isDirected

/-- The `while improved` loop of `louvain` in `communities.py`: run
`_one_pass`, contract, append the contracted graph, and continue while
the pass moved at least one node and left more than one community. -/
def louvainLoopA (fuelP : ℕ) : Graph → List Graph → ℕ → Option (List Graph)
  | _, _, 0 => none
  | H, acc, f + 1 =>
    match one_passA H fuelP with
    | none => none
    | some (σ, keys, imps) =>
      let H2 := partition_to_graph H (fun x => (σ.p x).getD 0) keys σ.cmem
      let acc2 := acc ++ [H2]
      if imps > 0 ∧ keys.length > 1 then louvainLoopA fuelP H2 acc2 f else some acc2

/-- `louvain(G)` of `communities.py` (undirected graphs; directedness
is not representable in this embedding, so the directed branch of the
validation is modelled only by `louvainAcceptsA`): `none` when the
validation raises or fuel runs out, otherwise the dendrogram list. -/
def louvainA (G : Graph) (fuelP fuelL : ℕ) : Option (List Graph) :=
  if numberOfEdges G = 0 then none else louvainLoopA fuelP G [] fuelL

/-- The gain formula of the specification (modelled from the spec,
section 4.1): `ΔQ(u → c) = k_in(u,c)/m − (totalDegree[c] · k_u)/(2·m²)`
with `k_u` the weighted degree of `u`. -/
def gainSpec (m k_u k_in totc : ℚ) : ℚ :=
  k_in / m - totc * k_u / (2 * m ^ 2)

/-! ## Concrete graphs -/

/-- A path of three nodes with unit weights: `0 - 1 - 2`. -/
def path3 : Graph := mkG [0, 1, 2] [(0, 1, 1), (1, 2, 1)]

/-- A single unit edge `0 - 1`. -/
def path2 : Graph := mkG [0, 1] [(0, 1, 1)]

/-- A single edge `0 - 1` of weight 2. -/
def path2w : Graph := mkG [0, 1] [(0, 1, 2)]

/-- A triangle with unit weights. -/
def triangleG : Graph := mkG [0, 1, 2] [(0, 1, 1), (0, 2, 1), (1, 2, 1)]

/-- A graph with a non-empty node set and one edge of weight 0: its
total edge weight is zero although it has an edge. -/
def zeroWG : Graph := mkG [0, 1] [(0, 1, 0)]

/-- A single node carrying a self-loop of weight 1: the local-moving
phase performs no move on it. -/
def loopG : Graph := mkG [0] [(0, 0, 1)]

/-- Two unit-weight triangles `{0,1,2}` and `{3,4,5}` joined by the
bridge `2 - 3` (the worked scenario of the specification). -/
def bridgeG : Graph :=
  mkG [0, 1, 2, 3, 4, 5]
    [(0, 1, 1), (0, 2, 1), (1, 2, 1), (2, 3, 1), (3, 4, 1), (3, 5, 1), (4, 5, 1)]

/-- The aggregated graph built by `louvain` from `_one_pass`'s result
(its first loop iteration), `default` when the pass runs out of fuel. -/
def aggOf (G : Graph) (fuel : ℕ) : Graph :=
  match one_passA G fuel with
  | some (σ, keys, _) => partition_to_graph G (fun x => (σ.p x).getD 0) keys σ.cmem
  | none => default

/-! ## Embedding of `networkx/algorithms/community.py` (suffix `B`) -/

structure BState where
  p : ℕ → Option ℕ
  inner : ℕ → Wt
  tot : ℕ → Wt
  best : Option ℕ

def initStateB (G : Graph) : BState :=
  { p := fun u => if u ∈ G.nodes then some u else none
    inner := fun u => selfLoopW G u
    tot := fun u => Wt.ofNat (degN G u)
    best := none }

def removeB (G : Graph) (σ : BState) (u : ℕ) : BState :=
  let c_old := σ.p u
  let innerU := σ.inner u - (k_inB G u c_old σ.p + selfLoopW G u)
  let totU := σ.tot u - Wt.ofNat (degN G u)
  { σ with
    p := fun x => if x = u then none else σ.p x
    inner := fun x => if x = u then innerU else σ.inner x
    tot := fun x => if x = u then totU else σ.tot x }

def scanB (G : Graph) (σ : BState) (u : ℕ) : Wt → Option ℕ → List ℕ → Option ℕ
  | _, cur, [] => cur
  | mg, cur, v :: vs =>
    if v = u then scanB G σ u mg cur vs
    else
      let c := (σ.p v).getD 0
      let g := gainB G u c σ.p (σ.tot c)
      if mg.blt g then scanB G σ u g (some v) vs else scanB G σ u mg cur vs

def stepB (G : Graph) (σ : BState) (u : ℕ) : BState × Bool :=
  let c_old := σ.p u
  let σ1 := removeB G σ u
  let best2 := scanB G σ1 u 0 σ.best (nbrs G u)
  let c_new : Option ℕ := match best2 with
    | some b => σ1.p b
    | none => c_old
  let innerU := σ1.inner u + (k_inB G u c_new σ1.p + selfLoopW G u)
  let totU := σ1.tot u + Wt.ofNat (degN G u)
  ({ p := fun x => if x = u then c_new else σ1.p x
     inner := fun x => if x = u then innerU else σ1.inner x
     tot := fun x => if x = u then totU else σ1.tot x
     best := best2 }, decide (c_old ≠ c_new))

/-- Two components: a path `0 - 1 - 2` with weights 3 and 1, and an
isolated edge `3 - 4` of weight 1/5 (chosen so that no neighbor of
node 3 or 4 offers positive gain under `community.py`'s formula). -/
def g4 : Graph := mkG [0, 1, 2, 3, 4] [(0, 1, 3), (1, 2, 1), (3, 4, Wt.mkq 1 5)]

/-- The `community.py` one-pass state just before node 3's turn in the
first sweep over `g4`: nodes 0, 1, 2 processed from the initial
state. -/
def bStateAfter012 : BState :=
  (([0, 1, 2] : List ℕ).foldl (fun s u => (stepB g4 s u).1) (initStateB g4))

/-- The specification's internal weight of a community: the sum of
weights of edges with both endpoints in the community, each undirected
internal edge counted once and each self-loop once. -/
def specInternal (G : Graph) (s : Finset ℕ) : Wt :=
  wsum (G.edges.map (fun e => if e.1 ∈ s ∧ e.2.1 ∈ s then e.2.2 else 0))

/-- The `communities.py` one-pass state right after the first atomic
move on `path2`: node 0 removed from community 0 and inserted into
community 1. -/
def aStateAfterMove0 : LState :=
  (stepA path2 (Wt.ofNat 2 * totalWeight path2) (initStateA path2) 0).1

/-! ## Embedding of `networkx/algorithms/community/community.py`
(Girvan-Newman) -/

/-- One expansion step of reachability: add every node adjacent to the
current set. -/
def expandR (G : Graph) (s : List ℕ) : List ℕ :=
  G.nodes.filter (fun v => s.contains v || s.any (fun x => hasEdge G x v))

/-- The nodes reachable from `u`, as the sublist of `G.nodes` (in node
order) obtained by `|nodes|` expansion steps. -/
def reachL (G : Graph) (u : ℕ) : List ℕ :=
  Nat.iterate (expandR G) G.nodes.length [u]

/-- `nx.connected_component_subgraphs(G)` as node lists, components in
first-node order, members in node order: the `_communities` tuple. -/
def componentsOf (G : Graph) : List (List ℕ) :=
  (G.nodes.foldl (fun acc u =>
    if acc.2.contains u then acc
    else (acc.1 ++ [reachL G u], acc.2 ++ reachL G u)) (([] : List (List ℕ)), ([] : List ℕ))).1

/-- `nx.number_connected_components(G)`. -/
def numComponents (G : Graph) : ℕ := (componentsOf G).length

/-- Modelled from the spec: `nx.edge_betweenness_centrality(G, weight=None)`
is not part of this repository's sources (the spec treats the
betweenness-based detector's collaborators as external); the standard
definition is used: the number of shortest `s`-`t` walks of length `k`
is counted per endpoint pair, and the betweenness of an edge is the sum
over connected unordered pairs `s ≠ t` of the fraction of shortest
paths through the edge.  The positive normalization constant of the
library is omitted since the algorithm only compares values. -/
def walkCount (G : Graph) : ℕ → ℕ → ℕ → ℕ
  | s, t, 0 => if s = t then 1 else 0
  | s, t, k + 1 => ((nbrs G s).map (fun v => walkCount G v t k)).sum

/-- The distance from `s` to `t`: the least walk length below `|nodes|`
with a nonzero walk count, `none` when disconnected. -/
def distOpt (G : Graph) (s t : ℕ) : Option ℕ :=
  (List.range G.nodes.length).find? (fun k => walkCount G s t k != 0)

/-- The number of shortest `s`-`t` paths (`0` when disconnected). -/
def sigmaCount (G : Graph) (s t : ℕ) : ℕ :=
  match distOpt G s t with
  | some d => walkCount G s t d
  | none => 0

/-- The number of shortest `s`-`t` paths traversing `a` then `b`. -/
def throughDir (G : Graph) (s t a b : ℕ) : ℕ :=
  match distOpt G s t, distOpt G s a, distOpt G b t with
  | some d, some da, some db =>
    if da + 1 + db = d then walkCount G s a da * walkCount G b t db else 0
  | _, _, _ => 0

/-- The betweenness contribution of edge `{a, b}` for the pair `(s, t)`. -/
def pairFrac (G : Graph) (s t a b : ℕ) : Wt :=
  if sigmaCount G s t = 0 then 0
  else Wt.ofNat (throughDir G s t a b + throughDir G s t b a) / Wt.ofNat (sigmaCount G s t)

/-- Edge betweenness of `{a, b}`: sum over unordered pairs `s < t`. -/
def betw (G : Graph) (a b : ℕ) : Wt :=
  wsum ((G.nodes.product G.nodes).map (fun st =>
    if st.1 < st.2 then pairFrac G st.1 st.2 a b else 0))

/-- One round of the inner loop of `_remove_max_edge`: compute the
betweenness of every edge once, then remove every edge attaining the
maximum (`G.edges()` is a snapshot list in networkx 1.x, so removing
while iterating is sound and is modelled by one filter). -/
def removeRound (G : Graph) : Graph :=
  let bs := G.edges.map (fun e => betw G e.1 e.2.1)
  let mx := bs.foldl Wt.vmax (bs.headD 0)
  { G with edges := G.edges.filter (fun e => !((betw G e.1 e.2.1).beq mx)) }

/-- The `while` loop of `_remove_max_edge(G, weight=None)`: keep
removing rounds of maximum-betweenness edges until the number of
connected components strictly exceeds the count at entry; `none` models
both fuel exhaustion and the `ValueError` that Python's `max` raises on
an edgeless graph. -/
def rmLoop (entry : ℕ) : Graph → ℕ → Option Graph
  | _, 0 => none
  | g, f + 1 =>
    if numComponents g > entry then some g
    else if g.edges.isEmpty then none
    else rmLoop entry (removeRound g) f

/-- `_remove_max_edge(G)`. -/
def remove_max_edge (g : Graph) (fuel : ℕ) : Option Graph :=
  rmLoop (numComponents g) g fuel

/-- The `while g.number_of_edges() > 0` loop of `girvan_newman`:
after each `_remove_max_edge` call, record the connected-component
partition. -/
def gnLoop (fi : ℕ) : Graph → ℕ → Option (List (List (List ℕ)))
  | _, 0 => none
  | g, fo + 1 =>
    if g.edges.isEmpty then some []
    else
      match remove_max_edge g fi with
      | none => none
      | some g2 =>
        match gnLoop fi g2 fo with
        | none => none
        | some rest => some (componentsOf g2 :: rest)

/-- `girvan_newman(G, weight=None)` of
`networkx/algorithms/community/community.py`. -/
def girvan_newman (g : Graph) (fi fo : ℕ) : Option (List (List (List ℕ))) :=
  gnLoop fi g fo

/-- Modelled from the spec (claim C9's reading): remove only the single
globally maximum-betweenness edge (the first edge attaining the
maximum, in edge order) and record the component partition after every
such single removal, until no edges remain. -/
def gnSingleLoop : Graph → ℕ → Option (List (List (List ℕ)))
  | _, 0 => none
  | g, fo + 1 =>
    if g.edges.isEmpty then some []
    else
      let bs := g.edges.map (fun e => betw g e.1 e.2.1)
      let mx := bs.foldl Wt.vmax (bs.headD 0)
      match g.edges.find? (fun e => (betw g e.1 e.2.1).beq mx) with
      | none => none
      | some e =>
        let g2 := { g with edges := g.edges.filter (fun e2 => !(e2.1 == e.1 && e2.2.1 == e.2.1 && e2.2.2.beq e.2.2)) }
        match gnSingleLoop g2 fo with
        | none => none
        | some rest => some (componentsOf g2 :: rest)

/-- A path of four nodes (the Girvan-Newman scenario): its unique
maximum-betweenness edge is the middle one, after whose removal the two
remaining edges tie for the maximum. -/
def path4 : Graph := mkG [0, 1, 2, 3] [(0, 1, 1), (1, 2, 1), (2, 3, 1)]

/-! ## Invariants of the local-moving phase (`communities.py`) -/

/-- The partition/community-dictionary invariant of `_one_pass`: every
node is assigned a community index below the node count, assigned nodes
are members of their community's set, and every member of any
community's set is a node assigned exactly there. -/
def InvA (G : Graph) (σ : LState) : Prop :=
  (∀ u ∈ G.nodes, ∃ k, σ.p u = some k ∧ k < G.nodes.length)
  ∧ (∀ u k, σ.p u = some k → u ∈ σ.cmem k)
  ∧ (∀ k u, u ∈ σ.cmem k → u ∈ G.nodes ∧ σ.p u = some k)

/-! ## Weight accounting of the aggregation step -/

/-- The rational value of the total weight of an edge list. -/
def esum (es : List (ℕ × ℕ × Wt)) : ℚ := (es.map (fun e => e.2.2.toRat)).sum

/-- The total weight of internal non-self-loop edges under a partition
assignment, in ℚ. -/
def internalExtra (G : Graph) (pOf : ℕ → ℕ) : ℚ :=
  (G.edges.map (fun e => if pOf e.1 = pOf e.2.1 ∧ e.1 ≠ e.2.1 then e.2.2.toRat else 0)).sum

/-- The relation traced by the inner loop of `_remove_max_edge`: from
`g`, repeatedly remove one round of maximum-betweenness edges while the
component count has not strictly exceeded `entry` and edges remain. -/
inductive RoundsTo (entry : ℕ) : Graph → Graph → Prop where
  | done : ∀ g, entry < numComponents g → RoundsTo entry g g
  | step : ∀ g g2, ¬ entry < numComponents g → g.edges.isEmpty = false →
      RoundsTo entry (removeRound g) g2 → RoundsTo entry g g2

/-- The recording discipline of `girvan_newman`: while edges remain,
perform one `_remove_max_edge` step (a `RoundsTo` chain with entry
count `numComponents g`) and record the resulting component partition;
stop when no edges remain. -/
inductive GNRecords : Graph → List (List (List ℕ)) → Prop where
  | nil : ∀ g, g.edges.isEmpty = true → GNRecords g []
  | cons : ∀ g g2 rest, g.edges.isEmpty = false → RoundsTo (numComponents g) g g2 →
      GNRecords g2 rest → GNRecords g (componentsOf g2 :: rest)

/-! ### Interpretation lemmas for `Wt` -/

theorem Wt.den_ne (a : Wt) : ((a.den : ℚ)) ≠ 0 := by
  exact_mod_cast Nat.pos_iff_ne_zero.mp a.pos

theorem Wt.toRat_ofNat (n : ℕ) : (Wt.ofNat n).toRat = (n : ℚ) := by
  simp [Wt.toRat, Wt.ofNat]

theorem Wt.toRat_add (a b : Wt) : (a + b).toRat = a.toRat + b.toRat := by
  show (Wt.add a b).toRat = _
  have ha := a.den_ne
  have hb := b.den_ne
  simp only [Wt.toRat, Wt.add]
  push_cast
  field_simp
  try ring

theorem Wt.toRat_sub (a b : Wt) : (a - b).toRat = a.toRat - b.toRat := by
  show (Wt.sub a b).toRat = _
  have ha := a.den_ne
  have hb := b.den_ne
  simp only [Wt.toRat, Wt.sub]
  push_cast
  field_simp
  try ring

theorem Wt.toRat_mul (a b : Wt) : (a * b).toRat = a.toRat * b.toRat := by
  show (Wt.mul a b).toRat = _
  have ha := a.den_ne
  have hb := b.den_ne
  simp only [Wt.toRat, Wt.mul]
  push_cast
  field_simp
  try ring

theorem Wt.toRat_div (a b : Wt) : (a / b).toRat = a.toRat / b.toRat := by
  show (Wt.div a b).toRat = _
  by_cases h : b.num = 0
  · simp [Wt.toRat, Wt.div, h]
  · have ha := a.den_ne
    have hb := b.den_ne
    have hq : (b.num : ℚ) ≠ 0 := by exact_mod_cast h
    simp only [Wt.toRat, Wt.div, dif_neg h]
    have hrhs : (a.num : ℚ) / a.den / ((b.num : ℚ) / b.den)
        = ((a.num : ℚ) * b.den) / ((a.den : ℚ) * b.num) := by
      field_simp
      try ring
    rw [hrhs]
    rcases lt_or_gt_of_ne h with hneg | hpos
    · have hs : b.num.sign = -1 := Int.sign_eq_neg_one_of_neg hneg
      have hna : ((b.num.natAbs : ℚ)) = -(b.num : ℚ) := by
        rw [Int.cast_natAbs, abs_of_neg (by exact_mod_cast hneg)]
        push_cast
        ring
      push_cast [hs, hna]
      rw [div_eq_div_iff (by exact mul_ne_zero ha (by simpa using hq)) (mul_ne_zero ha hq)]
      ring
    · have hs : b.num.sign = 1 := Int.sign_eq_one_of_pos hpos
      have hna : ((b.num.natAbs : ℚ)) = (b.num : ℚ) := by
        rw [Int.cast_natAbs, abs_of_pos (by exact_mod_cast hpos)]
      push_cast [hs, hna]
      ring_nf

theorem Wt.blt_iff (a b : Wt) : a.blt b = true ↔ a.toRat < b.toRat := by
  have ha : (0 : ℚ) < (a.den : ℚ) := by exact_mod_cast a.pos
  have hb : (0 : ℚ) < (b.den : ℚ) := by exact_mod_cast b.pos
  simp only [Wt.blt, decide_eq_true_eq, Wt.toRat]
  rw [div_lt_div_iff₀ ha hb]
  exact_mod_cast Iff.rfl

theorem Wt.beq_iff (a b : Wt) : a.beq b = true ↔ a.toRat = b.toRat := by
  have ha : (0 : ℚ) < (a.den : ℚ) := by exact_mod_cast a.pos
  have hb : (0 : ℚ) < (b.den : ℚ) := by exact_mod_cast b.pos
  simp only [Wt.beq, decide_eq_true_eq, Wt.toRat]
  rw [div_eq_div_iff (ne_of_gt ha) (ne_of_gt hb)]
  exact_mod_cast Iff.rfl

theorem toRat_wsum (l : List Wt) : (wsum l).toRat = (l.map Wt.toRat).sum := by
  induction l with
  | nil => simp [wsum, Wt.toRat_ofNat, Wt.toRat, Wt.ofNat]
  | cons a l ih =>
    have : wsum (a :: l) = a + wsum l := rfl
    rw [this, Wt.toRat_add, ih]
    simp

theorem initStateA_inv (G : Graph) (hn : G.nodes.Nodup) : InvA G (initStateA G) := by
  refine ⟨?_, ?_, ?_⟩
  · intro u hu
    exact ⟨G.nodes.indexOf u, by simp [initStateA, hu], List.indexOf_lt_length.mpr hu⟩
  · intro u k hp
    simp only [initStateA] at hp ⊢
    by_cases hu : u ∈ G.nodes
    · simp only [hu, if_pos] at hp
      obtain rfl : G.nodes.indexOf u = k := by simpa using hp
      have hlt : G.nodes.indexOf u < G.nodes.length := List.indexOf_lt_length.mpr hu
      simp [hlt, List.indexOf_get hlt]
    · simp [hu] at hp
  · intro k u hu
    simp only [initStateA] at hu
    by_cases hk : k < G.nodes.length
    · simp only [hk, dif_pos, Finset.mem_singleton] at hu
      subst hu
      have hmem : G.nodes.get ⟨k, hk⟩ ∈ G.nodes := List.get_mem G.nodes k hk
      refine ⟨hmem, ?_⟩
      simp only [initStateA, hmem, if_pos]
      exact congrArg some (List.get_indexOf hn ⟨k, hk⟩)
    · simp [hk] at hu

/-- Unfolding equation for the cons case of the neighbor scan. -/
theorem scanA_cons (G : Graph) (σ : LState) (u : ℕ) (denom : Wt)
    (mg : Wt) (cur : Option ℕ) (v : ℕ) (vs : List ℕ) :
    scanA G σ u denom mg cur (v :: vs)
      = if v = u then scanA G σ u denom mg cur vs
        else if Wt.blt mg (gainA G u ((σ.p v).getD 0) σ.p σ.tot denom)
          then scanA G σ u denom (gainA G u ((σ.p v).getD 0) σ.p σ.tot denom)
            (some ((σ.p v).getD 0)) vs
          else scanA G σ u denom mg cur vs := rfl

/-- The candidate returned by the neighbor scan is either the incoming
candidate or the community of some scanned neighbor distinct from `u`. -/
theorem scanA_mem (G : Graph) (σ : LState) (u : ℕ) (denom : Wt) :
    ∀ vs (mg : Wt) (cur : Option ℕ),
      scanA G σ u denom mg cur vs = cur
      ∨ ∃ v, v ∈ vs ∧ v ≠ u ∧ scanA G σ u denom mg cur vs = some ((σ.p v).getD 0) := by
  intro vs
  induction vs with
  | nil => intro mg cur; left; rfl
  | cons v vs ih =>
    intro mg cur
    rw [scanA_cons]
    by_cases hv : v = u
    · rw [if_pos hv]
      rcases ih mg cur with h | ⟨v2, hv2, hvu, h⟩
      · exact Or.inl h
      · exact Or.inr ⟨v2, List.mem_cons_of_mem _ hv2, hvu, h⟩
    · rw [if_neg hv]
      by_cases hg : Wt.blt mg (gainA G u ((σ.p v).getD 0) σ.p σ.tot denom)
      · rw [if_pos hg]
        rcases ih (gainA G u ((σ.p v).getD 0) σ.p σ.tot denom) (some ((σ.p v).getD 0)) with h | ⟨v2, hv2, hvu, h⟩
        · exact Or.inr ⟨v, List.mem_cons_self _ _, hv, h⟩
        · exact Or.inr ⟨v2, List.mem_cons_of_mem _ hv2, hvu, h⟩
      · rw [if_neg hg]
        rcases ih mg cur with h | ⟨v2, hv2, hvu, h⟩
        · exact Or.inl h
        · exact Or.inr ⟨v2, List.mem_cons_of_mem _ hv2, hvu, h⟩

theorem stepA_inv (G : Graph) (denom : Wt) (σ : LState) (u : ℕ)
    (hu : u ∈ G.nodes) (hI : InvA G σ) : InvA G (stepA G denom σ u).1 := by
  obtain ⟨h1, h2, h3⟩ := hI
  obtain ⟨k0, hp0, hk0⟩ := h1 u hu
  have hcold : (σ.p u).getD 0 = k0 := by rw [hp0]; rfl
  have hstep : (stepA G denom σ u).1
      = insertA G u ((bestCandA G (removeA G u k0 σ) u denom).getD k0) (removeA G u k0 σ) := by
    simp only [stepA, hcold]
  set σ1 := removeA G u k0 σ with hσ1
  set c1 := (bestCandA G σ1 u denom).getD k0 with hc1
  have hC1 : ∀ k, σ1.cmem k = if k = k0 then (σ.cmem k0).erase u else σ.cmem k := by
    intro k
    by_cases hk : k = k0 <;> simp [hσ1, removeA, hk]
  have hP2 : ∀ x, (insertA G u c1 σ1).p x = if x = u then some c1 else σ.p x := by
    intro x
    by_cases hx : x = u <;> simp [insertA, removeA, hσ1, hx]
  have hC2 : ∀ k, (insertA G u c1 σ1).cmem k
      = if k = c1 then insert u (σ1.cmem c1) else σ1.cmem k := by
    intro k
    by_cases hk : k = c1 <;> simp [insertA, hk]
  have hc1lt : c1 < G.nodes.length := by
    rcases scanA_mem G σ1 u denom (nbrs G u) 0 none with h | ⟨v, hv, hvu, h⟩
    · rw [hc1, bestCandA, h]
      exact hk0
    · have hvnode : v ∈ G.nodes := (List.mem_filter.mp hv).1
      obtain ⟨kv, hpv, hkv⟩ := h1 v hvnode
      have hσ1v : σ1.p v = some kv := by simp [hσ1, removeA, hvu, hpv]
      rw [hc1, bestCandA, h, hσ1v]
      exact hkv
  rw [hstep]
  refine ⟨?_, ?_, ?_⟩
  · intro x hx
    by_cases hxu : x = u
    · subst hxu
      exact ⟨c1, by rw [hP2, if_pos rfl], hc1lt⟩
    · obtain ⟨k, hk, hklt⟩ := h1 x hx
      exact ⟨k, by rw [hP2, if_neg hxu]; exact hk, hklt⟩
  · intro x k hk
    rw [hP2] at hk
    by_cases hxu : x = u
    · subst hxu
      rw [if_pos rfl] at hk
      obtain rfl : c1 = k := by simpa using hk
      rw [hC2, if_pos rfl]
      exact Finset.mem_insert_self x _
    · rw [if_neg hxu] at hk
      have hx : x ∈ σ.cmem k := h2 x k hk
      rw [hC2]
      by_cases hkc : k = c1
      · rw [if_pos hkc]
        refine Finset.mem_insert_of_mem ?_
        rw [hC1]
        by_cases hck : c1 = k0
        · rw [if_pos hck]
          exact Finset.mem_erase.mpr ⟨hxu, hck ▸ hkc ▸ hx⟩
        · rw [if_neg hck]
          exact hkc ▸ hx
      · rw [if_neg hkc, hC1]
        by_cases hkk0 : k = k0
        · rw [if_pos hkk0]
          exact Finset.mem_erase.mpr ⟨hxu, hkk0 ▸ hx⟩
        · rw [if_neg hkk0]
          exact hx
  · intro k x hx
    rw [hC2] at hx
    by_cases hkc : k = c1
    · rw [if_pos hkc] at hx
      rcases Finset.mem_insert.mp hx with hxu | hxm
      · subst hxu
        refine ⟨hu, ?_⟩
        rw [hP2, if_pos rfl, hkc]
      · have hxs : x ≠ u ∧ x ∈ σ.cmem c1 := by
          rw [hC1] at hxm
          by_cases hck : c1 = k0
          · rw [if_pos hck] at hxm
            exact ⟨Finset.ne_of_mem_erase hxm, hck ▸ Finset.mem_of_mem_erase hxm⟩
          · rw [if_neg hck] at hxm
            refine ⟨?_, hxm⟩
            intro hcontr
            subst hcontr
            have hpc := (h3 c1 x hxm).2
            rw [hp0] at hpc
            exact hck (by simpa using hpc.symm)
        obtain ⟨hxu, hxs2⟩ := hxs
        obtain ⟨hxn, hpx⟩ := h3 c1 x hxs2
        exact ⟨hxn, by rw [hP2, if_neg hxu, hkc]; exact hpx⟩
    · rw [if_neg hkc, hC1] at hx
      by_cases hkk : k = k0
      · rw [if_pos hkk] at hx
        have hxu : x ≠ u := Finset.ne_of_mem_erase hx
        obtain ⟨hxn, hpx⟩ := h3 k x (hkk ▸ Finset.mem_of_mem_erase hx)
        exact ⟨hxn, by rw [hP2, if_neg hxu]; exact hpx⟩
      · rw [if_neg hkk] at hx
        obtain ⟨hxn, hpx⟩ := h3 k x hx
        have hxu : x ≠ u := by
          intro hcontr
          subst hcontr
          rw [hp0] at hpx
          exact hkk (by simpa using hpx.symm)
        exact ⟨hxn, by rw [hP2, if_neg hxu]; exact hpx⟩

theorem sweepGoA_inv (G : Graph) (denom : Wt) :
    ∀ us (σ : LState) (cnt : ℕ), (∀ u ∈ us, u ∈ G.nodes) → InvA G σ →
      InvA G (sweepGoA G denom σ cnt us).1 := by
  intro us
  induction us with
  | nil => intro σ cnt _ hI; exact hI
  | cons u us ih =>
    intro σ cnt hus hI
    show InvA G (sweepGoA G denom (stepA G denom σ u).1 _ us).1
    exact ih _ _ (fun v hv => hus v (List.mem_cons_of_mem _ hv))
      (stepA_inv G denom σ u (hus u (List.mem_cons_self _ _)) hI)

theorem loopA_inv (G : Graph) (denom : Wt) :
    ∀ (f : ℕ) (σ : LState) (imps : ℕ) (r : LState × ℕ), InvA G σ →
      loopA G denom σ imps f = some r → InvA G r.1 := by
  intro f
  induction f with
  | zero => intro σ imps r _ h; exact absurd h (by simp [loopA])
  | succ f ih =>
    intro σ imps r hI h
    rw [loopA] at h
    by_cases hz : (sweepA G denom σ).2 = 0
    · rw [if_pos hz] at h
      obtain rfl : ((sweepA G denom σ).1, imps) = r := by simpa using h
      exact sweepGoA_inv G denom G.nodes σ 0 (fun _ h => h) hI
    · rw [if_neg hz] at h
      exact ih _ _ _ (sweepGoA_inv G denom G.nodes σ 0 (fun _ h => h) hI) h

/-! ## The converged case: a move-free sweep leaves the partition
unchanged -/

theorem sweepGoA_cnt_le (G : Graph) (denom : Wt) :
    ∀ us (σ : LState) (cnt : ℕ), cnt ≤ (sweepGoA G denom σ cnt us).2 := by
  intro us
  induction us with
  | nil => intro σ cnt; exact le_rfl
  | cons u us ih =>
    intro σ cnt
    refine le_trans ?_ (ih (stepA G denom σ u).1 (cnt + if (stepA G denom σ u).2 then 1 else 0))
    exact Nat.le_add_right _ _

/-- A node's turn that performs no move restores the partition and the
community sets exactly (remove followed by insert into `c_old`). -/
theorem stepA_noMove (G : Graph) (denom : Wt) (σ : LState) (u : ℕ) (c0 : ℕ)
    (hp : σ.p u = some c0) (hm : u ∈ σ.cmem c0)
    (hno : (stepA G denom σ u).2 = false) :
    (stepA G denom σ u).1.p = σ.p ∧ (stepA G denom σ u).1.cmem = σ.cmem := by
  have hcold : (σ.p u).getD 0 = c0 := by rw [hp]; rfl
  have hstep1 : (stepA G denom σ u).1
      = insertA G u ((bestCandA G (removeA G u c0 σ) u denom).getD c0) (removeA G u c0 σ) := by
    simp only [stepA, hcold]
  have hstep2 : (stepA G denom σ u).2
      = decide ((bestCandA G (removeA G u c0 σ) u denom).getD c0 ≠ c0) := by
    simp only [stepA, hcold]
  have hnew : (bestCandA G (removeA G u c0 σ) u denom).getD c0 = c0 := by
    by_contra hne
    rw [hstep2] at hno
    simp [hne] at hno
  rw [hstep1, hnew]
  constructor
  · funext x
    by_cases hx : x = u
    · subst hx
      simp [insertA, removeA, hp]
    · simp [insertA, removeA, hx]
  · funext k
    by_cases hk : k = c0
    · rw [hk]
      have hval : (insertA G u c0 (removeA G u c0 σ)).cmem c0
          = insert u ((σ.cmem c0).erase u) := by
        simp [insertA, removeA]
      rw [hval]
      exact Finset.insert_erase hm
    · simp [insertA, removeA, hk]

/-- A sweep whose move count stays at its start value leaves the
partition and the community sets exactly as they were. -/
theorem sweepGoA_zero (G : Graph) (denom : Wt) :
    ∀ us (σ : LState) (cnt : ℕ),
      (∀ u ∈ us, ∃ k, σ.p u = some k ∧ u ∈ σ.cmem k) →
      (sweepGoA G denom σ cnt us).2 = cnt →
      (sweepGoA G denom σ cnt us).1.p = σ.p ∧ (sweepGoA G denom σ cnt us).1.cmem = σ.cmem := by
  intro us
  induction us with
  | nil => intro σ cnt _ _; exact ⟨rfl, rfl⟩
  | cons u us ih =>
    intro σ cnt hmem hz
    obtain ⟨k0, hp0, hm0⟩ := hmem u (List.mem_cons_self _ _)
    have hstep : (stepA G denom σ u).2 = false := by
      by_contra hb
      rw [Bool.not_eq_false] at hb
      have h1 : (sweepGoA G denom σ cnt (u :: us)).2
          = (sweepGoA G denom (stepA G denom σ u).1 (cnt + 1) us).2 := by
        show (sweepGoA G denom (stepA G denom σ u).1 (cnt + if (stepA G denom σ u).2 then 1 else 0) us).2 = _
        rw [hb]
        rfl
      have h2 := sweepGoA_cnt_le G denom us (stepA G denom σ u).1 (cnt + 1)
      omega
    obtain ⟨hP, hC⟩ := stepA_noMove G denom σ u k0 hp0 hm0 hstep
    have hrw : sweepGoA G denom σ cnt (u :: us)
        = sweepGoA G denom (stepA G denom σ u).1 cnt us := by
      show sweepGoA G denom (stepA G denom σ u).1 (cnt + if (stepA G denom σ u).2 then 1 else 0) us = _
      rw [hstep]
      rfl
    rw [hrw] at hz ⊢
    have hmem2 : ∀ v ∈ us, ∃ k, (stepA G denom σ u).1.p v = some k ∧ v ∈ (stepA G denom σ u).1.cmem k := by
      intro v hv
      rw [hP, hC]
      exact hmem v (List.mem_cons_of_mem _ hv)
    obtain ⟨hP2, hC2⟩ := ih (stepA G denom σ u).1 cnt hmem2 hz
    exact ⟨hP2.trans hP, hC2.trans hC⟩

theorem totalWeight_toRat (G : Graph) : (totalWeight G).toRat = esum G.edges := by
  rw [totalWeight, toRat_wsum, esum, List.map_map]
  rfl

theorem esum_insertAdd (a b : ℕ) (w : Wt) :
    ∀ es, esum (insertAdd es a b w) = esum es + w.toRat := by
  intro es
  induction es with
  | nil => simp [insertAdd, esum]
  | cons e es ih =>
    rw [insertAdd]
    by_cases hm : (e.1 = a ∧ e.2.1 = b) ∨ (e.1 = b ∧ e.2.1 = a)
    · rw [if_pos hm]
      show (e.2.2 + w).toRat + esum es = (e.2.2.toRat + esum es) + w.toRat
      rw [Wt.toRat_add]
      ring
    · rw [if_neg hm]
      show e.2.2.toRat + esum (insertAdd es a b w) = (e.2.2.toRat + esum es) + w.toRat
      rw [ih]
      ring

theorem esum_aggFold (pOf : ℕ → ℕ) :
    ∀ (es acc : List (ℕ × ℕ × Wt)),
      esum (es.foldl (aggStep pOf) acc)
        = esum acc + (es.map (fun e => (aggContrib pOf e).toRat)).sum := by
  intro es
  induction es with
  | nil => intro acc; simp
  | cons e es ih =>
    intro acc
    rw [List.foldl_cons, ih, aggStep, esum_insertAdd]
    simp only [List.map_cons, List.sum_cons]
    ring

theorem aggContrib_toRat (pOf : ℕ → ℕ) (e : ℕ × ℕ × Wt) :
    (aggContrib pOf e).toRat
      = e.2.2.toRat + (if pOf e.1 = pOf e.2.1 ∧ e.1 ≠ e.2.1 then e.2.2.toRat else 0) := by
  rw [aggContrib]
  by_cases hc : pOf e.1 = pOf e.2.1 ∧ e.1 ≠ e.2.1
  · rw [if_pos hc, if_pos hc, Wt.toRat_mul, Wt.toRat_ofNat]
    ring
  · rw [if_neg hc, if_neg hc]
    ring

/-! ## Characterization of `one_passA` results -/

theorem one_passA_elim (G : Graph) (fuel : ℕ) (σ : LState) (keys : List ℕ) (imps : ℕ)
    (h : one_passA G fuel = some (σ, keys, imps)) :
    loopA G (Wt.ofNat 2 * totalWeight G) (initStateA G) 0 fuel = some (σ, imps)
    ∧ keys = cKeysA G σ := by
  rw [one_passA] at h
  obtain ⟨r, hr, hmap⟩ := Option.map_eq_some'.mp h
  obtain ⟨h1, h2, h3⟩ : r.1 = σ ∧ cKeysA G r.1 = keys ∧ r.2 = imps := by
    refine ⟨congrArg (fun x => x.1) hmap, ?_, ?_⟩
    · exact congrArg (fun x => x.2.1) hmap
    · exact congrArg (fun x => x.2.2) hmap
  subst h1
  subst h3
  exact ⟨by rw [← hr], h2.symm⟩

theorem one_passA_inv (G : Graph) (fuel : ℕ) (hn : G.nodes.Nodup)
    (σ : LState) (keys : List ℕ) (imps : ℕ)
    (h : one_passA G fuel = some (σ, keys, imps)) : InvA G σ := by
  obtain ⟨hl, _⟩ := one_passA_elim G fuel σ keys imps h
  exact loopA_inv G (Wt.ofNat 2 * totalWeight G) fuel (initStateA G) 0 (σ, imps)
    (initStateA_inv G hn) hl

/-! ## Properties of the Girvan-Newman loops -/

/-- The inner removal loop only returns once the component count
strictly exceeds its entry value. -/
theorem rmLoop_gt (entry : ℕ) :
    ∀ (f : ℕ) (g g2 : Graph), rmLoop entry g f = some g2 → entry < numComponents g2 := by
  intro f
  induction f with
  | zero => intro g g2 h; exact absurd h (by simp [rmLoop])
  | succ f ih =>
    intro g g2 h
    rw [rmLoop] at h
    by_cases hgt : numComponents g > entry
    · rw [if_pos hgt] at h
      obtain rfl : g = g2 := by simpa using h
      exact hgt
    · rw [if_neg hgt] at h
      by_cases he : g.edges.isEmpty
      · rw [if_pos he] at h
        exact absurd h (by simp)
      · rw [if_neg he] at h
        exact ih _ _ h

theorem remove_max_edge_gt (g : Graph) (fuel : ℕ) (g2 : Graph)
    (h : remove_max_edge g fuel = some g2) : numComponents g < numComponents g2 :=
  rmLoop_gt (numComponents g) fuel g g2 h

theorem rmLoop_rounds (entry : ℕ) :
    ∀ (f : ℕ) (g g2 : Graph), rmLoop entry g f = some g2 → RoundsTo entry g g2 := by
  intro f
  induction f with
  | zero => intro g g2 h; exact absurd h (by simp [rmLoop])
  | succ f ih =>
    intro g g2 h
    rw [rmLoop] at h
    by_cases hgt : numComponents g > entry
    · rw [if_pos hgt] at h
      obtain rfl : g = g2 := by simpa using h
      exact RoundsTo.done g hgt
    · rw [if_neg hgt] at h
      by_cases he : g.edges.isEmpty
      · rw [if_pos he] at h
        exact absurd h (by simp)
      · rw [if_neg he] at h
        exact RoundsTo.step g g2 hgt (by simpa using he) (ih _ _ h)

theorem gnLoop_records (fi : ℕ) :
    ∀ (fo : ℕ) (g : Graph) seq, gnLoop fi g fo = some seq → GNRecords g seq := by
  intro fo
  induction fo with
  | zero => intro g seq h; exact absurd h (by simp [gnLoop])
  | succ fo ih =>
    intro g seq h
    rw [gnLoop] at h
    by_cases he : g.edges.isEmpty
    · rw [if_pos he] at h
      obtain rfl : [] = seq := by simpa using h
      exact GNRecords.nil g he
    · rw [if_neg he] at h
      cases hrm : remove_max_edge g fi with
      | none =>
        rw [hrm] at h
        exact absurd (show (none : Option (List (List (List ℕ)))) = some seq from h) (by simp)
      | some g2 =>
        rw [hrm] at h
        replace h : (match gnLoop fi g2 fo with
            | none => none
            | some rest => some (componentsOf g2 :: rest)) = some seq := h
        cases hrest : gnLoop fi g2 fo with
        | none => rw [hrest] at h; exact absurd h (by simp)
        | some rest =>
          rw [hrest] at h
          obtain rfl : componentsOf g2 :: rest = seq := by simpa using h
          exact GNRecords.cons g g2 rest (by simpa using he)
            (rmLoop_rounds (numComponents g) fi g g2 hrm) (ih g2 rest hrest)

/-- Along a `girvan_newman` run, the recorded partitions have strictly
increasing community counts, and the first recorded partition has more
communities than the input graph has components. -/
theorem gnLoop_chain (fi : ℕ) :
    ∀ (fo : ℕ) (g : Graph) seq, gnLoop fi g fo = some seq →
      List.Chain' (fun x y => x.length < y.length ∧ x ≠ y) seq
      ∧ (∀ a, seq.head? = some a → numComponents g < a.length) := by
  intro fo
  induction fo with
  | zero => intro g seq h; exact absurd h (by simp [gnLoop])
  | succ fo ih =>
    intro g seq h
    rw [gnLoop] at h
    by_cases he : g.edges.isEmpty
    · rw [if_pos he] at h
      obtain rfl : [] = seq := by simpa using h
      exact ⟨List.chain'_nil, by simp⟩
    · rw [if_neg he] at h
      cases hrm : remove_max_edge g fi with
      | none =>
        rw [hrm] at h
        exact absurd (show (none : Option (List (List (List ℕ)))) = some seq from h) (by simp)
      | some g2 =>
        rw [hrm] at h
        replace h : (match gnLoop fi g2 fo with
            | none => none
            | some rest => some (componentsOf g2 :: rest)) = some seq := h
        cases hrest : gnLoop fi g2 fo with
        | none => rw [hrest] at h; exact absurd h (by simp)
        | some rest =>
          rw [hrest] at h
          obtain rfl : componentsOf g2 :: rest = seq := by simpa using h
          obtain ⟨hch, hhd⟩ := ih g2 rest hrest
          have hgt : numComponents g < numComponents g2 := remove_max_edge_gt g fi g2 hrm
          refine ⟨List.chain'_cons'.mpr ⟨?_, hch⟩, ?_⟩
          · intro b hb
            have hlt : (componentsOf g2).length < b.length := hhd b hb
            exact ⟨hlt, fun hcontr => by rw [hcontr] at hlt; exact lt_irrefl _ hlt⟩
          · intro a ha
            obtain rfl : componentsOf g2 = a := by simpa using ha
            exact hgt

/-! ## Helper interpretation lemmas for concrete values -/

theorem Wt.toRat_eq_num (a : Wt) (n : ℕ) (h : a.beq (Wt.ofNat n) = true) : a.toRat = (n : ℚ) := by
  have h2 := (Wt.beq_iff a (Wt.ofNat n)).mp h
  rwa [Wt.toRat_ofNat] at h2

theorem Wt.toRat_mkq (n : ℤ) (d : ℕ) (h : 0 < d) : (Wt.mkq n d).toRat = (n : ℚ) / (d : ℚ) := by
  simp [Wt.mkq, h, Wt.toRat]

theorem Wt.toRat_zero : (0 : Wt).toRat = 0 := by
  show (Wt.ofNat 0).toRat = 0
  rw [Wt.toRat_ofNat]
  norm_num

/-! ## Claim theorems -/

/-- C1: neither draft's gain function returns the specification's
`k_in(u,c)/m − (totalDegree[c]·k_u)/(2·m²)`.  On the path `0 - 1 - 2`
(total weight `m = 2`), for node `0` just removed from its singleton
community and candidate community `1 = {node 1}` (so `k_in = 1`,
`totalDegree[c] = 2`, `k_u = 1`): `_gain` of `communities.py` returns
`k_in − tot·deg/(2m) = 1/2`, `_gain` of `community.py` returns
`k_in/(2m) − tot·deg/(2m²) = 0`, while the specification's formula
gives `1/4`. -/
theorem c1_gain_formula_bug :
    (gainA path3 0 1 (removeA path3 0 0 (initStateA path3)).p
        (removeA path3 0 0 (initStateA path3)).tot (Wt.ofNat 2 * totalWeight path3)).toRat = 1 / 2
    ∧ (gainB path3 0 1 (removeA path3 0 0 (initStateA path3)).p
        ((removeA path3 0 0 (initStateA path3)).tot 1)).toRat = 0
    ∧ gainSpec (totalWeight path3).toRat (weightedDeg path3 0).toRat
        (k_inA path3 0 1 (removeA path3 0 0 (initStateA path3)).p).toRat
        ((removeA path3 0 0 (initStateA path3)).tot 1).toRat = 1 / 4
    ∧ ((1 : ℚ) / 2 ≠ 1 / 4) ∧ ((0 : ℚ) ≠ 1 / 4) := by
  refine ⟨?_, ?_, ?_, by norm_num, by norm_num⟩
  · have h := (Wt.beq_iff (gainA path3 0 1 (removeA path3 0 0 (initStateA path3)).p
        (removeA path3 0 0 (initStateA path3)).tot (Wt.ofNat 2 * totalWeight path3))
        (Wt.mkq 1 2)).mp (by decide)
    rw [h, Wt.toRat_mkq 1 2 (by norm_num)]
    norm_num
  · simpa using Wt.toRat_eq_num (gainB path3 0 1 (removeA path3 0 0 (initStateA path3)).p
      ((removeA path3 0 0 (initStateA path3)).tot 1)) 0 (by decide)
  · rw [Wt.toRat_eq_num (totalWeight path3) 2 (by decide),
      Wt.toRat_eq_num (weightedDeg path3 0) 1 (by decide),
      Wt.toRat_eq_num (k_inA path3 0 1 (removeA path3 0 0 (initStateA path3)).p) 1 (by decide),
      Wt.toRat_eq_num ((removeA path3 0 0 (initStateA path3)).tot 1) 2 (by decide)]
    norm_num [gainSpec]

/-- C2: a graph with a non-empty node set and an edge of weight 0 has
total edge weight zero, yet the validation of `louvain` in
`communities.py` (which tests `number_of_edges() == 0`) accepts it and
the run proceeds, instead of raising before any work; the draft in
`community.py`, which tests the total weight itself, rejects it. -/
theorem c2_zero_weight_accepted :
    louvainAcceptsA (numberOfEdges zeroWG) false = true
    ∧ (totalWeight zeroWG).toRat = 0
    ∧ zeroWG.nodes ≠ []
    ∧ louvainAcceptsB (totalWeight zeroWG) false = false := by
  refine ⟨by decide, ?_, by decide, by decide⟩
  simpa using Wt.toRat_eq_num (totalWeight zeroWG) 0 (by decide)

/-- C3 counterexample: contracting the converged partition that
`_one_pass` itself produces on the unit triangle (all three nodes in
one community) yields an aggregated graph of total weight 6, not the
original total weight 3: weight is not conserved. -/
theorem c3_counterexample :
    (totalWeight (aggOf triangleG 10)).toRat = 6
    ∧ (totalWeight triangleG).toRat = 3
    ∧ (one_passA triangleG 10).isSome = true
    ∧ (6 : ℚ) ≠ 3 := by
  refine ⟨?_, ?_, by decide, by norm_num⟩
  · simpa using Wt.toRat_eq_num (totalWeight (aggOf triangleG 10)) 6 (by decide)
  · simpa using Wt.toRat_eq_num (totalWeight triangleG) 3 (by decide)

theorem sum_aggContrib (pOf : ℕ → ℕ) :
    ∀ es : List (ℕ × ℕ × Wt),
      (es.map (fun e => (aggContrib pOf e).toRat)).sum
        = (es.map (fun e => e.2.2.toRat)).sum
          + (es.map (fun e =>
              if pOf e.1 = pOf e.2.1 ∧ e.1 ≠ e.2.1 then e.2.2.toRat else 0)).sum := by
  intro es
  induction es with
  | nil => simp
  | cons e es ih =>
    rw [List.map_cons, List.sum_cons, ih, aggContrib_toRat, List.map_cons, List.sum_cons,
      List.map_cons, List.sum_cons]
    ring

/-- C3 amended: for every graph and partition assignment, the total
edge weight of the graph `_partition_to_graph` builds equals the input
graph's total weight plus the total weight of internal non-self-loop
edges (each such edge of weight `w` contributes `2w` to its community's
self-loop), so weight is conserved exactly when no community contains a
non-self-loop edge. -/
theorem c3_amended_weight (G : Graph) (pOf : ℕ → ℕ) (keys : List ℕ) (cm : ℕ → Finset ℕ) :
    (totalWeight (partition_to_graph G pOf keys cm)).toRat
      = (totalWeight G).toRat + internalExtra G pOf := by
  rw [totalWeight_toRat, totalWeight_toRat]
  show esum (G.edges.foldl (aggStep pOf) []) = esum G.edges + internalExtra G pOf
  rw [esum_aggFold]
  have hnil : esum ([] : List (ℕ × ℕ × Wt)) = 0 := rfl
  rw [hnil, zero_add, sum_aggContrib]
  rfl

/-- C4: in `community.py`'s `_one_pass`, the `best` variable persists
across node scans.  On `g4`, after nodes 0, 1, 2 are processed in the
first sweep (`best` last set to node 1), node 3's only neighbor
community `{4}` has strictly negative gain, so no candidate is set for
node 3; the claim requires re-insertion into `c_old = 3`, but the code
computes `c_new = p[best] = p[1] = 1` and moves node 3 into community 1
of the other connected component. -/
theorem c4_stale_best_bug :
    bStateAfter012.p 3 = some 3
    ∧ bStateAfter012.best = some 1
    ∧ bStateAfter012.p 1 = some 1
    ∧ nbrs g4 3 = [4]
    ∧ (gainB g4 3 4 (removeB g4 bStateAfter012 3).p
        ((removeB g4 bStateAfter012 3).tot 4)).toRat < 0
    ∧ (stepB g4 bStateAfter012 3).1.p 3 = some 1
    ∧ (stepB g4 bStateAfter012 3).2 = true := by
  refine ⟨by decide, by decide, by decide, by decide, ?_, by decide, by decide⟩
  have h := (Wt.blt_iff (gainB g4 3 4 (removeB g4 bStateAfter012 3).p
      ((removeB g4 bStateAfter012 3).tot 4)) 0).mp (by decide)
  simpa [Wt.toRat_zero] using h

/-- C5: whenever `_one_pass` of `communities.py` returns, its partition
assigns every node of the input graph exactly one surviving community,
the node belongs to that community's member set, every member of a
surviving community is a node, and no node lies in two communities. -/
theorem c5_partition_complete (G : Graph) (fuel : ℕ) (hn : G.nodes.Nodup)
    (σ : LState) (keys : List ℕ) (imps : ℕ)
    (h : one_passA G fuel = some (σ, keys, imps)) :
    (∀ u ∈ G.nodes, σ.p u ≠ none ∧ ∃ k, σ.p u = some k ∧ k ∈ keys ∧ u ∈ σ.cmem k)
    ∧ (∀ k, k ∈ keys → ∀ u, u ∈ σ.cmem k → u ∈ G.nodes)
    ∧ (∀ k k' u, u ∈ σ.cmem k → u ∈ σ.cmem k' → k = k') := by
  obtain ⟨hl, hkeys⟩ := one_passA_elim G fuel σ keys imps h
  obtain ⟨h1, h2, h3⟩ := one_passA_inv G fuel hn σ keys imps h
  refine ⟨?_, ?_, ?_⟩
  · intro u hu
    obtain ⟨k, hk, hklt⟩ := h1 u hu
    have hmem := h2 u k hk
    refine ⟨by simp [hk], k, hk, ?_, hmem⟩
    rw [hkeys, cKeysA, List.mem_filter]
    have hne : σ.cmem k ≠ ∅ := Finset.Nonempty.ne_empty ⟨u, hmem⟩
    exact ⟨List.mem_range.mpr hklt, decide_eq_true hne⟩
  · intro k _ u hu
    exact (h3 k u hu).1
  · intro k k2 u hk hk2
    have e1 := (h3 k u hk).2
    have e2 := (h3 k2 u hk2).2
    rw [e1] at e2
    exact Option.some_injective ℕ e2

theorem c5_partition_complete_witness :
    ∃ σ keys imps, one_passA triangleG 10 = some (σ, keys, imps)
      ∧ ∀ u ∈ triangleG.nodes, σ.p u ≠ none
          ∧ ∃ k, σ.p u = some k ∧ k ∈ keys ∧ u ∈ σ.cmem k := by
  have h1 : (one_passA triangleG 10).isSome = true := by decide
  obtain ⟨r, hr⟩ := Option.isSome_iff_exists.mp h1
  exact ⟨r.1, r.2.1, r.2.2, hr,
    (c5_partition_complete triangleG 10 (by decide) r.1 r.2.1 r.2.2 hr).1⟩

/-- C6: the tracked aggregates of `communities.py` do not satisfy the
claimed invariant between atomic moves.  On the single unit edge
`0 - 1`, after the first atomic move (node 0 removed from community 0
and inserted into community 1), the community `1 = {0, 1}` has internal
weight 1, but the tracked `inner[1]` is 0, because `_remove`/`_insert`
pass the community dictionary itself to `_k_in` (whose sum is then
empty, see `kInDictArg`).  Moreover `tot` tracks unweighted degrees:
at initialization on the weight-2 edge, `tot[0] = G.degree(0) = 1`
while the weighted degree of node 0 is 2. -/
theorem c6_aggregate_invariant_bug :
    aStateAfterMove0.cmem 1 = ({0, 1} : Finset ℕ)
    ∧ aStateAfterMove0.p 0 = some 1
    ∧ (aStateAfterMove0.inner 1).toRat = 0
    ∧ (specInternal path2 (aStateAfterMove0.cmem 1)).toRat = 1
    ∧ ((initStateA path2w).tot 0).toRat = 1
    ∧ (weightedDeg path2w 0).toRat = 2
    ∧ ((0 : ℚ) ≠ 1) ∧ ((1 : ℚ) ≠ 2) := by
  refine ⟨by decide, by decide, ?_, ?_, ?_, ?_, by norm_num, by norm_num⟩
  · simpa using Wt.toRat_eq_num (aStateAfterMove0.inner 1) 0 (by decide)
  · simpa using Wt.toRat_eq_num (specInternal path2 (aStateAfterMove0.cmem 1)) 1 (by decide)
  · simpa using Wt.toRat_eq_num ((initStateA path2w).tot 0) 1 (by decide)
  · simpa using Wt.toRat_eq_num (weightedDeg path2w 0) 2 (by decide)

set_option maxRecDepth 8000 in
/-- C7 counterexample: on the two-triangle bridge graph, `louvain`
produces two levels; the level-2 node's `members` label is `{1, 5}` —
the level-1 node ids it contracted — and not the union of those nodes'
own `members` labels `{0,1,2} ∪ {3,4,5}`. -/
theorem c7_counterexample :
    ((louvainA bridgeG 10 10).getD []).length = 2
    ∧ (((louvainA bridgeG 10 10).getD []).getD 1 default).members 1 = ({1, 5} : Finset ℕ)
    ∧ (((louvainA bridgeG 10 10).getD []).getD 0 default).members 1 = ({0, 1, 2} : Finset ℕ)
    ∧ (((louvainA bridgeG 10 10).getD []).getD 0 default).members 5 = ({3, 4, 5} : Finset ℕ)
    ∧ (((louvainA bridgeG 10 10).getD []).getD 1 default).members 1
        ≠ ((((louvainA bridgeG 10 10).getD []).getD 1 default).members 1).biUnion
            (fun j => (((louvainA bridgeG 10 10).getD []).getD 0 default).members j) := by
  refine ⟨by decide, by decide, by decide, by decide, by decide⟩

set_option maxRecDepth 8000 in
/-- C7 amended: each aggregated node's `members` label is its
community's member set from the contracted level — the set of
previous-level node ids mapped to it by the partition (the `p`-preimage
by the invariant), not the union of those nodes' own labels; composing
labels through all levels still recovers the original node set, as the
concrete bridge-graph flattening shows. -/
theorem c7_amended_members (G : Graph) (fuel : ℕ) (hn : G.nodes.Nodup)
    (σ : LState) (keys : List ℕ) (imps : ℕ)
    (h : one_passA G fuel = some (σ, keys, imps)) :
    (∀ (H : Graph) (pOf : ℕ → ℕ) (ks : List ℕ) (cm : ℕ → Finset ℕ) (k : ℕ), k ∈ ks →
        (partition_to_graph H pOf ks cm).members k = cm k)
    ∧ (∀ k u, u ∈ σ.cmem k ↔ (u ∈ G.nodes ∧ σ.p u = some k))
    ∧ ((((louvainA bridgeG 10 10).getD []).getD 1 default).members 1).biUnion
        (fun j => (((louvainA bridgeG 10 10).getD []).getD 0 default).members j)
        = ({0, 1, 2, 3, 4, 5} : Finset ℕ) := by
  obtain ⟨h1, h2, h3⟩ := one_passA_inv G fuel hn σ keys imps h
  refine ⟨?_, ?_, by decide⟩
  · intro H pOf ks cm k hk
    simp [partition_to_graph, hk]
  · intro k u
    constructor
    · intro hu
      exact h3 k u hu
    · intro hu
      exact h2 u k hu.2

set_option maxRecDepth 8000 in
theorem c7_amended_members_witness :
    ∃ σ keys imps, one_passA bridgeG 10 = some (σ, keys, imps)
      ∧ ∀ k u, u ∈ σ.cmem k ↔ (u ∈ bridgeG.nodes ∧ σ.p u = some k) := by
  have h1 : (one_passA bridgeG 10).isSome = true := by decide
  obtain ⟨r, hr⟩ := Option.isSome_iff_exists.mp h1
  exact ⟨r.1, r.2.1, r.2.2, hr,
    (c7_amended_members bridgeG 10 (by decide) r.1 r.2.1 r.2.2 hr).2.1⟩

/-- C8: if the first sweep of `_one_pass` (from the initial singleton
state) performs zero moves, the pass returns immediately with the
identity singleton partition and an `improvements` count of zero. -/
theorem c8_converged_identity (G : Graph) (f : ℕ)
    (h : (sweepA G (Wt.ofNat 2 * totalWeight G) (initStateA G)).2 = 0) :
    ∃ σ keys, one_passA G (f + 1) = some (σ, keys, 0)
      ∧ σ.p = (initStateA G).p ∧ σ.cmem = (initStateA G).cmem
      ∧ ∀ u ∈ G.nodes, σ.p u = some (G.nodes.indexOf u)
          ∧ σ.cmem (G.nodes.indexOf u) = {u} := by
  have hmem : ∀ u ∈ G.nodes, ∃ k, (initStateA G).p u = some k ∧ u ∈ (initStateA G).cmem k := by
    intro u hu
    have hlt := List.indexOf_lt_length.mpr hu
    refine ⟨G.nodes.indexOf u, by simp [initStateA, hu], ?_⟩
    simp [initStateA, hlt, List.indexOf_get hlt]
  obtain ⟨hP, hC⟩ := sweepGoA_zero G (Wt.ofNat 2 * totalWeight G) G.nodes (initStateA G) 0 hmem h
  refine ⟨(sweepA G (Wt.ofNat 2 * totalWeight G) (initStateA G)).1,
    cKeysA G (sweepA G (Wt.ofNat 2 * totalWeight G) (initStateA G)).1, ?_, hP, hC, ?_⟩
  · rw [one_passA,
      show loopA G (Wt.ofNat 2 * totalWeight G) (initStateA G) 0 (f + 1)
        = some ((sweepA G (Wt.ofNat 2 * totalWeight G) (initStateA G)).1, 0) by
        rw [loopA]
        simp only [h, if_pos]]
    rfl
  · intro u hu
    have hlt := List.indexOf_lt_length.mpr hu
    have hP2 : (sweepA G (Wt.ofNat 2 * totalWeight G) (initStateA G)).1.p
        = (initStateA G).p := hP
    have hC2 : (sweepA G (Wt.ofNat 2 * totalWeight G) (initStateA G)).1.cmem
        = (initStateA G).cmem := hC
    rw [hP2, hC2]
    constructor
    · simp [initStateA, hu]
    · simp [initStateA, hlt, List.indexOf_get hlt]

theorem c8_converged_identity_witness :
    (sweepA loopG (Wt.ofNat 2 * totalWeight loopG) (initStateA loopG)).2 = 0
    ∧ ∃ σ keys, one_passA loopG (4 + 1) = some (σ, keys, 0)
      ∧ σ.p = (initStateA loopG).p ∧ σ.cmem = (initStateA loopG).cmem
      ∧ ∀ u ∈ loopG.nodes, σ.p u = some (loopG.nodes.indexOf u)
          ∧ σ.cmem (loopG.nodes.indexOf u) = {u} :=
  ⟨by decide, c8_converged_identity loopG 4 (by decide)⟩

/-- C9 counterexample: on the four-node path, `girvan_newman` records
two partitions (after the middle edge is removed, and after the round
that removes both remaining tied edges at once), whereas removing the
single globally maximum-betweenness edge and recording after each
removal — the claim's reading, modelled by `gnSingleLoop` — records
three partitions (one per edge), including the intermediate
`[[0], [1], [2, 3]]` that the code never produces. -/
theorem c9_counterexample :
    girvan_newman path4 10 10 = some [[[0, 1], [2, 3]], [[0], [1], [2], [3]]]
    ∧ gnSingleLoop path4 10
        = some [[[0, 1], [2, 3]], [[0], [1], [2, 3]], [[0], [1], [2], [3]]]
    ∧ numberOfEdges path4 = 3
    ∧ girvan_newman path4 10 10 ≠ gnSingleLoop path4 10 := by
  refine ⟨by decide, by decide, by decide, by decide⟩

/-- C9 amended: whenever `girvan_newman` returns, the returned value is
exactly the ordered sequence of connected-component partitions recorded
after each `_remove_max_edge` step, where one step removes, in rounds,
every edge tied for the maximum betweenness (recomputing betweenness
after each round) until the component count strictly exceeds its value
at the step's entry; recording continues until no edges remain. -/
theorem c9_amended_records (g : Graph) (fi fo : ℕ) (seq : List (List (List ℕ)))
    (h : girvan_newman g fi fo = some seq) : GNRecords g seq :=
  gnLoop_records fi fo g seq h

theorem c9_amended_records_witness :
    GNRecords path4 [[[0, 1], [2, 3]], [[0], [1], [2], [3]]] :=
  c9_amended_records path4 10 10 [[[0, 1], [2, 3]], [[0], [1], [2], [3]]] (by decide)

/-- C10: each `_remove_max_edge` call returns only once the number of
connected components strictly exceeds its value on entry, so the
sequence of partitions `girvan_newman` records has strictly increasing
community counts, and in particular no two consecutive recorded
partitions are equal. -/
theorem c10_round_removal_monotone :
    (∀ (g : Graph) (fuel : ℕ) (g2 : Graph), remove_max_edge g fuel = some g2 →
        numComponents g < numComponents g2)
    ∧ (∀ (g : Graph) (fi fo : ℕ) (seq : List (List (List ℕ))),
        girvan_newman g fi fo = some seq →
        List.Chain' (fun x y => x.length < y.length ∧ x ≠ y) seq) :=
  ⟨remove_max_edge_gt, fun g fi fo seq h => (gnLoop_chain fi fo g seq h).1⟩

theorem c10_round_removal_monotone_witness :
    ∃ g2 seq, remove_max_edge path4 10 = some g2
      ∧ numComponents path4 < numComponents g2
      ∧ girvan_newman path4 10 10 = some seq
      ∧ List.Chain' (fun x y => x.length < y.length ∧ x ≠ y) seq := by
  have h1 : (remove_max_edge path4 10).isSome = true := by decide
  obtain ⟨g2, hg2⟩ := Option.isSome_iff_exists.mp h1
  have h2 : girvan_newman path4 10 10 = some [[[0, 1], [2, 3]], [[0], [1], [2], [3]]] := by
    decide
  exact ⟨g2, [[[0, 1], [2, 3]], [[0], [1], [2], [3]]], hg2,
    c10_round_removal_monotone.1 path4 10 g2 hg2, h2,
    c10_round_removal_monotone.2 path4 10 10 [[[0, 1], [2, 3]], [[0], [1], [2], [3]]] h2⟩
